import Mathlib

/-!
Shallow embedding of totool (transitive otool), a Go program that walks the
dynamic-library dependency graph of a mach-o binary by repeatedly invoking
"otool -L" and renders the graph either as indented text or in dot format.

The embedding follows the later revision of the source (the one with the
dot printer, the prologue/epilogue printer methods and the self-dependency
filter); the earlier revision differs only by lacking those three features.
External effects are made explicit as parameters: the external "otool -L"
command is a function from a binary path to its outcome, filepath.Abs is a
function from a path to an Except, and every printer call becomes an event
in a trace.
-/

namespace Totool

/-- dependency stores a single dependency found by otool (field bin is the
path to the binary, field info the extra version data). -/
structure dependency where
  bin : String
  info : String
deriving DecidableEq, Repr

/-- One traversal event per call of a printer method: printPrologue,
printRootBin, printDepBin, printDep, printEpilogue. -/
inductive Event where
  | prologue
  | rootBin (bin : String)
  | depBin (d : dependency)
  | dep (src dst : String)
  | epilogue
deriving DecidableEq, Repr

/-! ## Model of the regexp depRe = \s*(.*)\s+(\(.*\))

Go's regexp (RE2) returns for FindStringSubmatch the leftmost match with
PCRE-style greedy submatch semantics.  Because the leading \s* and the
group (.*) can absorb arbitrary characters, a match (when one exists)
always starts at index 0 of the line.  Greedy resolution makes group 1 end
at the last position j such that a nonempty whitespace run starting at j is
immediately followed by a literal open paren with a close paren somewhere
after it; group 2 then stretches to the last close paren of the line.
Group 1 begins after the maximal leading whitespace run (or at j itself
when the only candidate j lies inside that run).  The lines handed to the
regexp come from bufio.Scanner and therefore contain no newline, so the
fact that RE2's dot does not match a newline never shows. -/

/-- goSpace models the RE2 character class \s. -/
def goSpace (c : Char) : Bool :=
  c = ' ' || c = '\t' || c = '\n' || c = '\r' || c = '\x0c'

/-- Length of the maximal whitespace run at the front of the list. -/
def wsRun : List Char → Nat
  | [] => 0
  | c :: cs => if goSpace c then wsRun cs + 1 else 0

/-- Index of the last occurrence of c in l, if any. -/
def lastIdx (l : List Char) (c : Char) : Option Nat :=
  match l with
  | [] => none
  | a :: rest =>
    match lastIdx rest c with
    | some i => some (i + 1)
    | none => if a = c then some 0 else none

/-- Try to place the \s+ of depRe at index j of the line: succeeds when a
nonempty whitespace run starts at j, the run is immediately followed by an
open paren at index m, and some close paren occurs at index e after m.
Returns (m, e). -/
def tryAt (l : List Char) (j : Nat) : Option (Nat × Nat) :=
  if goSpace (l.getD j 'x') then
    let m := j + wsRun (l.drop j)
    if l.getD m 'x' = '(' then
      match lastIdx (l.drop (m + 1)) ')' with
      | some k => some (m, m + 1 + k)
      | none => none
    else none
  else none

/-- Scan candidate positions for the \s+ of depRe from index j downwards
(greedy group 1 prefers the largest j); returns (j, m, e). -/
def searchJ (l : List Char) : Nat → Option (Nat × Nat × Nat)
  | 0 =>
    match tryAt l 0 with
    | some (m, e) => some (0, m, e)
    | none => none
  | j + 1 =>
    match tryAt l (j + 1) with
    | some (m, e) => some (j + 1, m, e)
    | none => searchJ l j

/-- Model of depRe.FindStringSubmatch on one scanner line: none when the
line does not match, otherwise the pair (submatch 1, submatch 2). -/
def depReMatch (l : List Char) : Option (List Char × List Char) :=
  match searchJ l (l.length - 1) with
  | some (j, m, e) =>
    let k := min (wsRun l) j
    some ((l.drop k).take (j - k), (l.drop m).take (e + 1 - m))
  | none => none

/-! ## Model of path/filepath Clean and Dir (unix separator) -/

/-- Split a character list on the separator '/'. -/
def splitSlash : List Char → List (List Char)
  | [] => [[]]
  | c :: rest =>
    match splitSlash rest with
    | [] => [[]]
    | s :: ss => if c = '/' then [] :: s :: ss else (c :: s) :: ss

/-- Stack-based processing of the path segments, as done by the lazybuf
loop of filepath.Clean: empty and "." segments are dropped, ".." pops a
normal segment, is dropped at the top of a rooted path and is kept
otherwise. -/
def cleanSegs (rooted : Bool) : List (List Char) → List (List Char) → List (List Char)
  | [], acc => acc.reverse
  | seg :: rest, acc =>
    if seg = [] then cleanSegs rooted rest acc
    else if seg = ['.'] then cleanSegs rooted rest acc
    else if seg = ['.', '.'] then
      match acc with
      | [] => if rooted then cleanSegs rooted rest [] else cleanSegs rooted rest [['.', '.']]
      | top :: acc2 =>
        if top = ['.', '.'] then cleanSegs rooted rest (seg :: top :: acc2)
        else cleanSegs rooted rest acc2
    else cleanSegs rooted rest (seg :: acc)

/-- Model of filepath.Clean on a unix path given as a character list. -/
def goCleanList (l : List Char) : List Char :=
  let rooted := l.head? = some '/'
  let stack := cleanSegs rooted (splitSlash l) []
  let body := List.intercalate ['/'] stack
  if rooted then '/' :: body
  else if body = [] then ['.']
  else body

/-- The prefix of the path up to and including its last '/' (empty when the
path has no separator), the slice filepath.Dir hands to Clean. -/
def dirPart : List Char → List Char
  | [] => []
  | c :: rest =>
    match dirPart rest with
    | [] => if c = '/' then ['/'] else []
    | r => c :: r

/-- Model of filepath.Dir on a unix path given as a character list. -/
def goDirList (l : List Char) : List Char := goCleanList (dirPart l)

/-- The relative marker relPrefix = "@executable_path/" of resolveDepPath. -/
def relMarker : List Char := "@executable_path/".data

/-- Model of strings.Replace(s, pat, rep, 1) for a nonempty pattern:
replace the leftmost occurrence of pat, if any. -/
def replaceFirstL (l pat rep : List Char) : List Char :=
  match l with
  | [] => []
  | c :: rest =>
    if pat.isPrefixOf (c :: rest) then rep ++ (c :: rest).drop pat.length
    else c :: replaceFirstL rest pat rep

/-- resolveDepPath transforms a path emitted by otool representing a
dependency of bin into a real path: a path starting with the relative
marker has the marker replaced by filepath.Dir(bin) plus a separator and
the result cleaned; any other path is returned as is. -/
def resolveDepPath (bin path : String) : String :=
  if relMarker.isPrefixOf path.data then
    ⟨goCleanList (replaceFirstL path.data relMarker (goDirList bin.data ++ ['/']))⟩
  else path

/-! ## Model of the dependency prober appendDirectDeps -/

/-- Outcome of exec.Command("otool", "-L", bin).Output(): either the
captured standard output (given as the lines bufio.Scanner would produce),
an *exec.ExitError when the utility ran and exited non-zero, or any other
error when the command could not be run at all. -/
inductive CmdOutcome where
  | output (lines : List String)
  | exitError (stderr : String)
  | startError (msg : String)
deriving DecidableEq, Repr

/-- How one call of appendDirectDeps ends: normal return, an error return
(the ProbeError), or a Go panic unwinding the whole process. -/
inductive DepsResult where
  | ok
  | probeError (msg : String)
  | panicked (msg : String)
deriving DecidableEq, Repr

/-- The scanner loop of appendDirectDeps: each line is matched against
depRe; a line that does not match panics (the Go %q formatting of the
panic message is abbreviated to plain concatenation); a matching line is
resolved against bin and appended unless it resolves to bin itself (the
self-dependency filter of the later revision). -/
def parseDepLines (bin : String) (deps : List dependency) : List String → List dependency × DepsResult
  | [] => (deps, .ok)
  | line :: rest =>
    match depReMatch line.data with
    | none => (deps, .panicked ("unexpected otool output: " ++ line))
    | some (p, info) =>
      if resolveDepPath bin ⟨p⟩ = bin then parseDepLines bin deps rest
      else parseDepLines bin (deps ++ [⟨resolveDepPath bin ⟨p⟩, ⟨info⟩⟩]) rest

/-- appendDirectDeps calls otool on bin and appends its dependencies to
deps.  On a command error the code asserts err.(*exec.ExitError): an
exit error becomes the ProbeError return with deps unchanged, any other
command error fails the type assertion and panics.  On success the first
output line (the binary itself) is skipped and the rest parsed. -/
def appendDirectDeps (deps : List dependency) (bin : String) (res : CmdOutcome) :
    List dependency × DepsResult :=
  match res with
  | .startError msg => (deps, .panicked ("interface conversion: " ++ msg))
  | .exitError _ => (deps, .probeError ("otool error when processing " ++ bin))
  | .output lines => parseDepLines bin deps (lines.drop 1)

/-- The prober seen from the walker: the list of direct dependencies of a
binary, or the failure mode of the probe. -/
inductive ProbeOutcome where
  | ok (deps : List dependency)
  | probeError (msg : String)
  | panicked (msg : String)
deriving DecidableEq, Repr

/-- The prober induced by an otool model: run appendDirectDeps on an empty
slice and keep its outcome. -/
def probeOf (otool : String → CmdOutcome) (bin : String) : ProbeOutcome :=
  match appendDirectDeps [] bin (otool bin) with
  | (ds, .ok) => .ok ds
  | (_, .probeError m) => .probeError m
  | (_, .panicked m) => .panicked m

/-! ## Model of the graph walker -/

/-- How the walk loop ends.  outOfFuel is an artifact of the fuel-indexed
embedding of the Go for-loop and corresponds to no Go outcome; the
termination theorems show it never occurs for adequate fuel. -/
inductive LoopResult where
  | done
  | probeError (msg : String)
  | panicked (msg : String)
  | outOfFuel
deriving DecidableEq, Repr

/-- The body of walk after root resolution: a fuel-indexed rendering of
the Go loop over toVisit.  The front entry is popped; an already visited
binary is skipped; otherwise it is marked visited, rendered (printRootBin
for the root, printDepBin for any other binary), probed, its direct
dependencies are appended to the queue unconditionally and one printDep
event per appended dependency is emitted; a probe error or panic aborts
the loop after the node was rendered. -/
def walkAux (probe : String → ProbeOutcome) (root : String) :
    Nat → List dependency → List String → List Event × LoopResult
  | _, [], _ => ([], .done)
  | 0, _ :: _, _ => ([], .outOfFuel)
  | fuel + 1, d :: rest, visited =>
    if visited.contains d.bin then walkAux probe root fuel rest visited
    else
      match probe d.bin with
      | .ok deps =>
        ((if d.bin = root then Event.rootBin root else Event.depBin d) ::
            (deps.map fun dd => Event.dep d.bin dd.bin) ++
            (walkAux probe root fuel (rest ++ deps) (d.bin :: visited)).1,
         (walkAux probe root fuel (rest ++ deps) (d.bin :: visited)).2)
      | .probeError m =>
        ([if d.bin = root then Event.rootBin root else Event.depBin d], .probeError m)
      | .panicked m =>
        ([if d.bin = root then Event.rootBin root else Event.depBin d], .panicked m)

/-- How one call of walk ends. -/
inductive WalkResult where
  | done
  | absError (msg : String)
  | probeError (msg : String)
  | panicked (msg : String)
  | outOfFuel
deriving DecidableEq, Repr

/-- Lift a loop outcome to a walk outcome. -/
def liftLoop : LoopResult → WalkResult
  | .done => .done
  | .probeError m => .probeError m
  | .panicked m => .panicked m
  | .outOfFuel => .outOfFuel

/-- walk resolves root with filepath.Abs (modelled by the parameter abs;
the %q formatting of the error message is abbreviated), returns at once on
a resolution error, and otherwise emits printPrologue, runs the loop from
a queue holding just the resolved root and an empty visited set, and emits
printEpilogue; the epilogue is deferred in Go, so it is emitted on the
error return and on panic unwinding as well. -/
def walk (abs : String → Except String String) (probe : String → ProbeOutcome)
    (fuel : Nat) (root : String) : List Event × WalkResult :=
  match abs root with
  | .error e => ([], .absError ("cannot get " ++ root ++ " absolute path: " ++ e))
  | .ok root2 =>
    (Event.prologue :: (walkAux probe root2 fuel [⟨root2, ""⟩] []).1 ++ [Event.epilogue],
     liftLoop (walkAux probe root2 fuel [⟨root2, ""⟩] []).2)

/-! ## Model of main -/

/-- The record of one processed root argument: its trace and outcome. -/
structure RootRun where
  root : String
  events : List Event
  result : WalkResult
deriving DecidableEq, Repr

/-- The observable end state of the process: the per-root runs in order,
the log lines written to standard error, the panic message if the process
died by panic, and the exit code. -/
structure MainResult where
  runs : List RootRun
  logs : List String
  panicMsg : Option String
  exitCode : Nat
deriving DecidableEq, Repr

/-- The message a walk error contributes to the log, if any. -/
def walkErrMsg : WalkResult → Option String
  | .absError m => some m
  | .probeError m => some m
  | _ => none

/-- One line of log.Printf("%s: %v", root, err) under the "totool: "
prefix. -/
def logLine (root msg : String) : String := "totool: " ++ root ++ ": " ++ msg

/-- The loop of main over the root arguments: each root is walked with its
own fresh state; an error is logged and the next root processed; a panic
stops the whole run. -/
def runRoots (abs : String → Except String String) (probe : String → ProbeOutcome)
    (fuel : Nat) : List String → List RootRun × List String × Option String
  | [] => ([], [], none)
  | r :: rs =>
    match (walk abs probe fuel r).2 with
    | .panicked m => ([⟨r, (walk abs probe fuel r).1, .panicked m⟩], [], some m)
    | res =>
      (⟨r, (walk abs probe fuel r).1, res⟩ :: (runRoots abs probe fuel rs).1,
       (match walkErrMsg res with
        | some m => logLine r m :: (runRoots abs probe fuel rs).2.1
        | none => (runRoots abs probe fuel rs).2.1),
       (runRoots abs probe fuel rs).2.2)

/-- main: with no arguments usage is printed and the process exits with
code 1 before any processing; otherwise every argument is processed in
order and the process exits with code 0 (the Go runtime exits with code 2
on an unrecovered panic). -/
def totoolMain (abs : String → Except String String) (probe : String → ProbeOutcome)
    (fuel : Nat) (args : List String) : MainResult :=
  if args = [] then ⟨[], [], none, 1⟩
  else
    ⟨(runRoots abs probe fuel args).1,
     (runRoots abs probe fuel args).2.1,
     (runRoots abs probe fuel args).2.2,
     match (runRoots abs probe fuel args).2.2 with
     | some _ => 2
     | none => 0⟩

/-! ## Model of the printers -/

/-- textPrinter as a per-event output function: prologue, epilogue and
printDep write nothing; printRootBin writes the path, a colon and a
newline; printDepBin writes a tab, the path and a newline, with the info
string after a space when the verbose flag is set. -/
def textPrinterRender (verbose : Bool) : Event → String
  | .prologue => ""
  | .epilogue => ""
  | .rootBin bin => bin ++ ":\n"
  | .depBin d => if verbose then "\t" ++ d.bin ++ " " ++ d.info ++ "\n" else "\t" ++ d.bin ++ "\n"
  | .dep _ _ => ""

/-- dotPrinter as a per-event output function: prologue opens the digraph,
epilogue closes it, printDep writes one quoted edge statement, and the two
node methods write nothing. -/
def dotPrinterRender : Event → String
  | .prologue => "digraph G \x7b\n"
  | .epilogue => "\x7d\n"
  | .rootBin _ => ""
  | .depBin _ => ""
  | .dep s t => "\t\x22" ++ s ++ "\x22 -> \x22" ++ t ++ "\x22;\n"

/-- Concatenate the output of a printer over a trace. -/
def renderAll (pr : Event → String) : List Event → String
  | [] => ""
  | e :: evs => pr e ++ renderAll pr evs

/-! ## Derived notions used by the statements -/

/-- The binary rendered by an event, if the event renders one (printRootBin
and printDepBin do, the other printer methods do not). -/
def eventBins : Event → List String
  | .rootBin b => [b]
  | .depBin d => [d.bin]
  | _ => []

/-- The binaries rendered along a trace, in order. -/
def renderedBins (evs : List Event) : List String :=
  evs.flatMap eventBins

/-- Whether an event is a printDep call with the given source. -/
def isDepSrc (b : String) : Event → Bool
  | .dep s _ => s = b
  | _ => false

/-- Finiteness bound on a prober over a universe U of binaries: probing
any binary of U that succeeds returns at most D dependencies, all of them
inside U. -/
def probeOkInv (probe : String → ProbeOutcome) (U : List String) (D : Nat) : Bool :=
  U.all fun b =>
    match probe b with
    | .ok deps => decide (deps.length ≤ D) && deps.all fun dd => U.contains dd.bin
    | _ => true

/-- Whether probing succeeds on every binary of U. -/
def probeAllOk (probe : String → ProbeOutcome) (U : List String) : Bool :=
  U.all fun b =>
    match probe b with
    | .ok _ => true
    | _ => false

/-- Fuel sufficient for the walk loop over a universe of at most U.length
binaries each with at most D direct dependencies. -/
def fuelBound (U : List String) (D : Nat) : Nat := U.length * (D + 1) + 1

/-- Reachability in the dependency graph reported by the prober: the
reflexive-transitive closure of the direct-dependency relation. -/
inductive Reaches (probe : String → ProbeOutcome) : String → String → Prop
  | refl (b : String) : Reaches probe b b
  | step {a b : String} {deps : List dependency} {dd : dependency} :
      Reaches probe a b → probe b = .ok deps → dd ∈ deps → Reaches probe a dd.bin

/-- Reachability from a frontier of binaries avoiding a visited set: the
base binaries are the unvisited members of the frontier, and an edge may
be followed from a reached binary whenever its target is unvisited.  This
is the mid-loop invariant shape of the BFS. -/
inductive RA (probe : String → ProbeOutcome) (visited front : List String) : String → Prop
  | base {b : String} : b ∈ front → b ∉ visited → RA probe visited front b
  | step {a : String} {deps : List dependency} {dd : dependency} :
      RA probe visited front a → probe a = .ok deps → dd ∈ deps → dd.bin ∉ visited →
      RA probe visited front dd.bin

/-! ## Sample inputs used by witnesses and the renderer example -/

/-- An otool model with the dependency graph of the spec's renderer
example: /bin/app depends on /usr/lib/libc.dylib alone, and every other
binary has no dependencies. -/
def otoolSample : String → CmdOutcome := fun b =>
  if b = "/bin/app" then
    .output ["/bin/app:",
             "\t/usr/lib/libc.dylib (compatibility version 1.0.0, current version 1.0.0)"]
  else .output [b ++ ":"]

/-- A two-node cyclic dependency graph: /A depends on /B and /B on /A. -/
def probeCyc : String → ProbeOutcome := fun b =>
  if b = "/A" then .ok [⟨"/B", "(v)"⟩]
  else if b = "/B" then .ok [⟨"/A", "(v)"⟩]
  else .ok []

/-- A diamond with a back edge: /R depends on /A and /B, both depend on
/C, and /C depends on /A again. -/
def probeDiamond : String → ProbeOutcome := fun b =>
  if b = "/R" then .ok [⟨"/A", "(v)"⟩, ⟨"/B", "(v)"⟩]
  else if b = "/A" then .ok [⟨"/C", "(v)"⟩]
  else if b = "/B" then .ok [⟨"/C", "(v)"⟩]
  else if b = "/C" then .ok [⟨"/A", "(v)"⟩]
  else .ok []

/-- An otool model that restates the probed binary as its own first
dependency entry: /A lists itself and then /B. -/
def otoolSelf : String → CmdOutcome := fun b =>
  if b = "/A" then .output ["/A:", "\t/A (self)", "\t/B (v)"]
  else .output [b ++ ":"]

/-- An otool model where /bad fails with a non-zero exit while the rest of
the sample graph probes normally. -/
def otoolMixed : String → CmdOutcome := fun b =>
  if b = "/bad" then .exitError "otool: /bad: error" else otoolSample b

/-- An otool model whose output holds a line that does not match the
expected line shape after a well-formed dependency line. -/
def otoolBadLine : String → CmdOutcome := fun b =>
  if b = "/bin/app" then
    .output ["/bin/app:",
             "\t/usr/lib/libc.dylib (compatibility version 1.0.0, current version 1.0.0)",
             "garbage"]
  else .output [b ++ ":"]

/-- An otool model behaving as if the otool executable cannot be run at
all: the command error is not an exit error. -/
def otoolMissing : String → CmdOutcome := fun _ =>
  .startError "exec: otool: executable file not found in PATH"

/-! ## Basic lemmas about traces -/

theorem contains_eq_false_iff (l : List String) (a : String) :
    l.contains a = false ↔ a ∉ l := by
  constructor
  · intro h hm
    have h2 : l.contains a = true := List.elem_iff.mpr hm
    rw [h] at h2
    exact Bool.false_ne_true h2
  · intro h
    cases hc : l.contains a with
    | false => rfl
    | true => exact absurd (List.elem_iff.mp hc) h

@[simp] theorem renderedBins_nil : renderedBins [] = [] := rfl

@[simp] theorem renderedBins_cons (e : Event) (evs : List Event) :
    renderedBins (e :: evs) = eventBins e ++ renderedBins evs := rfl

@[simp] theorem renderedBins_append (l m : List Event) :
    renderedBins (l ++ m) = renderedBins l ++ renderedBins m := by
  simp [renderedBins]

@[simp] theorem eventBins_render (d : dependency) (root : String) :
    eventBins (if d.bin = root then Event.rootBin root else Event.depBin d) = [d.bin] := by
  by_cases h : d.bin = root <;> simp [eventBins, h]

@[simp] theorem renderedBins_edges (b : String) (deps : List dependency) :
    renderedBins (deps.map fun dd => Event.dep b dd.bin) = [] := by
  induction deps with
  | nil => rfl
  | cons d rest ih => simp [renderedBins, eventBins]

/-- Rendered binaries of the loop trace avoid the visited set and are
pairwise distinct: a binary is marked visited right before it is rendered
and never rendered again. -/
theorem walkAux_fresh_nodup (probe : String → ProbeOutcome) (root : String) :
    ∀ (fuel : Nat) (queue : List dependency) (visited : List String),
      (∀ b ∈ renderedBins (walkAux probe root fuel queue visited).1, b ∉ visited) ∧
      (renderedBins (walkAux probe root fuel queue visited).1).Nodup := by
  intro fuel
  induction fuel with
  | zero =>
    intro queue visited
    cases queue with
    | nil => simp [walkAux]
    | cons d rest => simp [walkAux]
  | succ n ih =>
    intro queue visited
    cases queue with
    | nil => simp [walkAux]
    | cons d rest =>
      by_cases hv : d.bin ∈ visited
      · have hvc : visited.contains d.bin = true := List.elem_iff.mpr hv
        simpa [walkAux, hvc, hv] using ih rest visited
      · have hvm : d.bin ∉ visited := hv
        have hvc : visited.contains d.bin = false := (contains_eq_false_iff _ _).mpr hv
        cases hp : probe d.bin with
        | ok deps =>
          have hrec := ih (rest ++ deps) (d.bin :: visited)
          simp only [walkAux, hvc, Bool.false_eq_true, if_false, hp, renderedBins_cons,
            renderedBins_append, eventBins_render, renderedBins_edges, List.append_nil,
            List.nil_append, List.singleton_append]
          constructor
          · intro b hb
            rcases List.mem_cons.mp hb with hb1 | hb2
            · exact hb1 ▸ hvm
            · intro hbv
              exact (hrec.1 b hb2) (List.mem_cons_of_mem _ hbv)
          · refine List.nodup_cons.mpr ⟨?_, hrec.2⟩
            intro hmem
            exact (hrec.1 d.bin hmem) (List.mem_cons_self _ _)
        | probeError m =>
          simp only [walkAux, hvc, Bool.false_eq_true, if_false, hp]
          simp [hvm]
        | panicked m =>
          simp only [walkAux, hvc, Bool.false_eq_true, if_false, hp]
          simp [hvm]

/-- Every event of the loop trace is a printRootBin of the root, a
printDepBin of a non-root binary, or a printDep edge: the loop never calls
printPrologue or printEpilogue and renders the root only via printRootBin. -/
theorem walkAux_class (probe : String → ProbeOutcome) (root : String) :
    ∀ (fuel : Nat) (queue : List dependency) (visited : List String),
      ∀ e ∈ (walkAux probe root fuel queue visited).1,
        (e = Event.rootBin root) ∨
        (∃ d : dependency, e = Event.depBin d ∧ d.bin ≠ root) ∨
        (∃ s t, e = Event.dep s t) := by
  intro fuel
  induction fuel with
  | zero =>
    intro queue visited
    cases queue with
    | nil => simp [walkAux]
    | cons d rest => simp [walkAux]
  | succ n ih =>
    intro queue visited
    cases queue with
    | nil => simp [walkAux]
    | cons d rest =>
      by_cases hv : d.bin ∈ visited
      · have hvc : visited.contains d.bin = true := List.elem_iff.mpr hv
        intro e he
        rw [show walkAux probe root (n + 1) (d :: rest) visited =
              walkAux probe root n rest visited by simp [walkAux, hvc, hv]] at he
        exact ih rest visited e he
      · have hvc : visited.contains d.bin = false := (contains_eq_false_iff _ _).mpr hv
        cases hp : probe d.bin with
        | ok deps =>
          intro e he
          simp only [walkAux, hvc, Bool.false_eq_true, if_false, hp] at he
          rcases List.mem_cons.mp he with he | he
          · by_cases hr : d.bin = root
            · left; simpa [hr] using he
            · right; left; exact ⟨d, by simpa [hr] using he, hr⟩
          · rcases List.mem_append.mp he with he | he
            · rcases List.mem_map.mp he with ⟨dd, _, hdd⟩
              right; right; exact ⟨d.bin, dd.bin, hdd.symm⟩
            · exact ih (rest ++ deps) (d.bin :: visited) e he
        | probeError m =>
          intro e he
          simp only [walkAux, hvc, Bool.false_eq_true, if_false, hp,
            List.mem_singleton] at he
          by_cases hr : d.bin = root
          · left; simpa [hr] using he
          · right; left; exact ⟨d, by simpa [hr] using he, hr⟩
        | panicked m =>
          intro e he
          simp only [walkAux, hvc, Bool.false_eq_true, if_false, hp,
            List.mem_singleton] at he
          by_cases hr : d.bin = root
          · left; simpa [hr] using he
          · right; left; exact ⟨d, by simpa [hr] using he, hr⟩

/-- The loop never emits a prologue event. -/
theorem walkAux_no_prologue (probe : String → ProbeOutcome) (root : String)
    (fuel : Nat) (queue : List dependency) (visited : List String) :
    Event.prologue ∉ (walkAux probe root fuel queue visited).1 := by
  intro h
  rcases walkAux_class probe root fuel queue visited _ h with h2 | ⟨d, h2, _⟩ | ⟨s, t, h2⟩ <;>
    exact Event.noConfusion h2

/-- The loop never emits an epilogue event. -/
theorem walkAux_no_epilogue (probe : String → ProbeOutcome) (root : String)
    (fuel : Nat) (queue : List dependency) (visited : List String) :
    Event.epilogue ∉ (walkAux probe root fuel queue visited).1 := by
  intro h
  rcases walkAux_class probe root fuel queue visited _ h with h2 | ⟨d, h2, _⟩ | ⟨s, t, h2⟩ <;>
    exact Event.noConfusion h2

/-- Every printDep event of the loop trace comes from a successful probe
of its source whose returned dependency list contains the target. -/
theorem walkAux_dep_mem (probe : String → ProbeOutcome) (root : String) :
    ∀ (fuel : Nat) (queue : List dependency) (visited : List String) (s t : String),
      Event.dep s t ∈ (walkAux probe root fuel queue visited).1 →
      ∃ deps, probe s = .ok deps ∧ t ∈ deps.map dependency.bin := by
  intro fuel
  induction fuel with
  | zero =>
    intro queue visited s t h
    cases queue with
    | nil => simp [walkAux] at h
    | cons d rest => simp [walkAux] at h
  | succ n ih =>
    intro queue visited s t h
    cases queue with
    | nil => simp [walkAux] at h
    | cons d rest =>
      by_cases hv : d.bin ∈ visited
      · have hvc : visited.contains d.bin = true := List.elem_iff.mpr hv
        rw [show walkAux probe root (n + 1) (d :: rest) visited =
              walkAux probe root n rest visited by simp [walkAux, hvc, hv]] at h
        exact ih rest visited s t h
      · have hvc : visited.contains d.bin = false := (contains_eq_false_iff _ _).mpr hv
        cases hp : probe d.bin with
        | ok deps =>
          simp only [walkAux, hvc, Bool.false_eq_true, if_false, hp] at h
          rcases List.mem_cons.mp h with h | h
          · by_cases hr : d.bin = root <;> simp [hr] at h
          · rcases List.mem_append.mp h with h | h
            · rcases List.mem_map.mp h with ⟨dd, hdd, heq⟩
              rcases Event.dep.injEq _ _ _ _ ▸ heq with ⟨h1, h2⟩
              refine ⟨deps, h1 ▸ hp, ?_⟩
              exact h2 ▸ List.mem_map.mpr ⟨dd, hdd, rfl⟩
            · exact ih (rest ++ deps) (d.bin :: visited) s t h
        | probeError m =>
          simp only [walkAux, hvc, Bool.false_eq_true, if_false, hp,
            List.mem_singleton] at h
          by_cases hr : d.bin = root <;> simp [hr] at h
        | panicked m =>
          simp only [walkAux, hvc, Bool.false_eq_true, if_false, hp,
            List.mem_singleton] at h
          by_cases hr : d.bin = root <;> simp [hr] at h

/-- The source of every printDep event of the loop trace is itself
rendered in the same trace (the edge is emitted while visiting it). -/
theorem walkAux_dep_src_rendered (probe : String → ProbeOutcome) (root : String) :
    ∀ (fuel : Nat) (queue : List dependency) (visited : List String) (s t : String),
      Event.dep s t ∈ (walkAux probe root fuel queue visited).1 →
      s ∈ renderedBins (walkAux probe root fuel queue visited).1 := by
  intro fuel
  induction fuel with
  | zero =>
    intro queue visited s t h
    cases queue with
    | nil => simp [walkAux] at h
    | cons d rest => simp [walkAux] at h
  | succ n ih =>
    intro queue visited s t h
    cases queue with
    | nil => simp [walkAux] at h
    | cons d rest =>
      by_cases hv : d.bin ∈ visited
      · have hvc : visited.contains d.bin = true := List.elem_iff.mpr hv
        rw [show walkAux probe root (n + 1) (d :: rest) visited =
              walkAux probe root n rest visited by simp [walkAux, hvc, hv]] at h ⊢
        exact ih rest visited s t h
      · have hvc : visited.contains d.bin = false := (contains_eq_false_iff _ _).mpr hv
        cases hp : probe d.bin with
        | ok deps =>
          simp only [walkAux, hvc, Bool.false_eq_true, if_false, hp] at h ⊢
          simp only [renderedBins_cons, renderedBins_append, eventBins_render,
            renderedBins_edges, List.nil_append, List.singleton_append]
          rcases List.mem_cons.mp h with h | h
          · by_cases hr : d.bin = root <;> simp [hr] at h
          · rcases List.mem_append.mp h with h | h
            · rcases List.mem_map.mp h with ⟨dd, hdd, heq⟩
              rcases Event.dep.injEq _ _ _ _ ▸ heq with ⟨h1, h2⟩
              exact List.mem_cons.mpr (Or.inl h1.symm)
            · exact List.mem_cons.mpr (Or.inr (ih (rest ++ deps) (d.bin :: visited) s t h))
        | probeError m =>
          simp only [walkAux, hvc, Bool.false_eq_true, if_false, hp,
            List.mem_singleton] at h
          by_cases hr : d.bin = root <;> simp [hr] at h
        | panicked m =>
          simp only [walkAux, hvc, Bool.false_eq_true, if_false, hp,
            List.mem_singleton] at h
          by_cases hr : d.bin = root <;> simp [hr] at h

@[simp] theorem isDepSrc_render (b : String) (d : dependency) (root : String) :
    isDepSrc b (if d.bin = root then Event.rootBin root else Event.depBin d) = false := by
  by_cases h : d.bin = root <;> simp [isDepSrc, h]

theorem isDepSrc_true (b : String) (e : Event) (h : isDepSrc b e = true) :
    ∃ t, e = Event.dep b t := by
  cases e with
  | dep s t =>
    simp only [isDepSrc, decide_eq_true_eq] at h
    exact ⟨t, by rw [h]⟩
  | prologue => simp [isDepSrc] at h
  | rootBin b2 => simp [isDepSrc] at h
  | depBin d2 => simp [isDepSrc] at h
  | epilogue => simp [isDepSrc] at h

/-- The printDep events with a given rendered source are exactly one per
dependency the probe of that source returned, in order — even when a
target is already visited or already queued. -/
theorem walkAux_edges_of_rendered (probe : String → ProbeOutcome) (root : String) :
    ∀ (fuel : Nat) (queue : List dependency) (visited : List String) (b : String)
      (deps : List dependency),
      probe b = .ok deps →
      b ∈ renderedBins (walkAux probe root fuel queue visited).1 →
      (walkAux probe root fuel queue visited).1.filter (isDepSrc b) =
        deps.map fun dd => Event.dep b dd.bin := by
  intro fuel
  induction fuel with
  | zero =>
    intro queue visited b deps hb hmem
    cases queue with
    | nil => simp [walkAux] at hmem
    | cons d rest => simp [walkAux] at hmem
  | succ n ih =>
    intro queue visited b deps hb hmem
    cases queue with
    | nil => simp [walkAux] at hmem
    | cons d rest =>
      by_cases hv : d.bin ∈ visited
      · have hvc : visited.contains d.bin = true := List.elem_iff.mpr hv
        rw [show walkAux probe root (n + 1) (d :: rest) visited =
              walkAux probe root n rest visited by simp [walkAux, hvc, hv]] at hmem ⊢
        exact ih rest visited b deps hb hmem
      · have hvc : visited.contains d.bin = false := (contains_eq_false_iff _ _).mpr hv
        cases hp : probe d.bin with
        | ok deps0 =>
          simp only [walkAux, hvc, Bool.false_eq_true, if_false, hp] at hmem ⊢
          simp only [renderedBins_cons, renderedBins_append, eventBins_render,
            renderedBins_edges, List.nil_append, List.singleton_append] at hmem
          simp only [List.filter_cons, isDepSrc_render, Bool.false_eq_true, if_false,
            List.filter_append]
          by_cases hbd : b = d.bin
          · have hdeps : deps0 = deps := by
              rw [hbd] at hb
              have h2 := hp.symm.trans hb
              exact (ProbeOutcome.ok.injEq _ _ ▸ h2)
            subst hdeps
            have hfresh := walkAux_fresh_nodup probe root n (rest ++ deps0) (d.bin :: visited)
            have hnot : b ∉ renderedBins (walkAux probe root n (rest ++ deps0)
                (d.bin :: visited)).1 := by
              intro hmem2
              exact hfresh.1 b hmem2 (by rw [hbd]; exact List.mem_cons_self _ _)
            have hnil : (walkAux probe root n (rest ++ deps0) (d.bin :: visited)).1.filter
                (isDepSrc b) = [] := by
              rw [List.filter_eq_nil_iff]
              intro e he hcontra
              rcases isDepSrc_true b e hcontra with ⟨t, rfl⟩
              exact hnot (walkAux_dep_src_rendered probe root n _ _ b t he)
            rw [hnil, List.append_nil, hbd]
            apply List.filter_eq_self.mpr
            intro e he
            rcases List.mem_map.mp he with ⟨dd, _, rfl⟩
            simp [isDepSrc]
          · have hmem2 : b ∈ renderedBins (walkAux probe root n (rest ++ deps0)
                (d.bin :: visited)).1 := by
              rcases List.mem_cons.mp hmem with h | h
              · exact absurd h hbd
              · exact h
            have hedges : (deps0.map fun dd => Event.dep d.bin dd.bin).filter
                (isDepSrc b) = [] := by
              rw [List.filter_eq_nil_iff]
              intro e he hcontra
              rcases List.mem_map.mp he with ⟨dd, _, rfl⟩
              simp only [isDepSrc, decide_eq_true_eq] at hcontra
              exact hbd hcontra.symm
            rw [hedges, List.nil_append]
            exact ih (rest ++ deps0) (d.bin :: visited) b deps hb hmem2
        | probeError m =>
          simp only [walkAux, hvc, Bool.false_eq_true, if_false, hp] at hmem ⊢
          simp only [renderedBins_cons, eventBins_render, List.append_nil,
            renderedBins_nil, List.mem_singleton] at hmem
          rw [hmem] at hb
          rw [hb] at hp
          exact absurd hp (by simp)
        | panicked m =>
          simp only [walkAux, hvc, Bool.false_eq_true, if_false, hp] at hmem ⊢
          simp only [renderedBins_cons, eventBins_render, List.append_nil,
            renderedBins_nil, List.mem_singleton] at hmem
          rw [hmem] at hb
          rw [hb] at hp
          exact absurd hp (by simp)

/-! ## Lemmas about frontier reachability -/

/-- Nothing is frontier-reachable from an empty frontier. -/
theorem RA_nil_front (probe : String → ProbeOutcome) (visited : List String) (b : String) :
    ¬ RA probe visited [] b := by
  intro h
  induction h with
  | base hmem _ => exact absurd hmem (List.not_mem_nil _)
  | step _ _ _ _ ih => exact ih

/-- Enlarging the frontier preserves frontier-reachability. -/
theorem RA_mono (probe : String → ProbeOutcome) (visited F F2 : List String)
    (hsub : ∀ x ∈ F, x ∈ F2) (b : String) (h : RA probe visited F b) :
    RA probe visited F2 b := by
  induction h with
  | base hmem hnv => exact RA.base (hsub _ hmem) hnv
  | step _ hp hdd hnv ih => exact RA.step ih hp hdd hnv

/-- A frontier element that is already visited contributes nothing. -/
theorem RA_cons_visited (probe : String → ProbeOutcome) (visited F : List String)
    (x : String) (hx : x ∈ visited) (b : String) :
    RA probe visited (x :: F) b ↔ RA probe visited F b := by
  constructor
  · intro h
    induction h with
    | @base b2 hmem hnv =>
      rcases List.mem_cons.mp hmem with h1 | h1
      · exact absurd (by rw [h1]; exact hx) hnv
      · exact RA.base h1 hnv
    | step _ hp hdd hnv ih => exact RA.step ih hp hdd hnv
  · exact RA_mono probe visited F (x :: F) (fun y hy => List.mem_cons_of_mem _ hy) b

/-- Visiting an unvisited frontier binary x with direct dependencies deps
turns frontier-reachability from x's frontier into the disjunction "is x"
or frontier-reachability from the frontier extended by x's dependencies
avoiding x: the step invariant of the BFS loop. -/
theorem RA_expand (probe : String → ProbeOutcome) (visited F : List String) (x : String)
    (deps : List dependency) (hx : x ∉ visited) (hp : probe x = .ok deps) (b : String) :
    RA probe visited (x :: F) b ↔
      b = x ∨ RA probe (x :: visited) (F ++ deps.map dependency.bin) b := by
  constructor
  · intro h
    induction h with
    | @base b2 hmem hnv =>
      by_cases hb2 : b2 = x
      · exact Or.inl hb2
      · refine Or.inr (RA.base ?_ ?_)
        · rcases List.mem_cons.mp hmem with h1 | h1
          · exact absurd h1 hb2
          · exact List.mem_append.mpr (Or.inl h1)
        · intro hc
          rcases List.mem_cons.mp hc with h1 | h1
          · exact hb2 h1
          · exact hnv h1
    | @step a deps2 dd hra hp2 hdd hnv ih =>
      by_cases hddx : dd.bin = x
      · exact Or.inl hddx
      · have hnv2 : dd.bin ∉ x :: visited := by
          intro hc
          rcases List.mem_cons.mp hc with h1 | h1
          · exact hddx h1
          · exact hnv h1
        rcases ih with h1 | h1
        · have hdeps : deps2 = deps := by
            rw [h1] at hp2
            have h2 := hp2.symm.trans hp
            exact (ProbeOutcome.ok.injEq _ _ ▸ h2)
          subst hdeps
          refine Or.inr (RA.base ?_ hnv2)
          exact List.mem_append.mpr (Or.inr (List.mem_map.mpr ⟨dd, hdd, rfl⟩))
        · exact Or.inr (RA.step h1 hp2 hdd hnv2)
  · intro h
    rcases h with h | h
    · exact RA.base (by rw [h]; exact List.mem_cons_self _ _) (by rw [h]; exact hx)
    · induction h with
      | @base b2 hmem hnv =>
        have hnv2 : b2 ∉ visited := fun hc => hnv (List.mem_cons_of_mem _ hc)
        rcases List.mem_append.mp hmem with h1 | h1
        · exact RA.base (List.mem_cons_of_mem _ h1) hnv2
        · rcases List.mem_map.mp h1 with ⟨dd, hdd, rfl⟩
          exact RA.step (RA.base (List.mem_cons_self _ _) hx) hp hdd hnv2
      | @step a deps2 dd hra hp2 hdd hnv ih =>
        exact RA.step ih hp2 hdd (fun hc => hnv (List.mem_cons_of_mem _ hc))

/-- From the singleton frontier of the root with nothing visited,
frontier-reachability is plain reachability. -/
theorem RA_root_iff (probe : String → ProbeOutcome) (root b : String) :
    RA probe [] [root] b ↔ Reaches probe root b := by
  constructor
  · intro h
    induction h with
    | @base b2 hmem _ =>
      rw [List.mem_singleton.mp hmem]
      exact Reaches.refl root
    | @step a deps dd hra hp hdd hnv ih => exact Reaches.step ih hp hdd
  · intro h
    induction h with
    | refl => exact RA.base (List.mem_singleton.mpr rfl) (List.not_mem_nil _)
    | @step b2 deps dd hra hp hdd ih => exact RA.step ih hp hdd (List.not_mem_nil _)

/-- When the loop drains its queue, the rendered binaries are exactly the
binaries frontier-reachable from the queue avoiding the visited set. -/
theorem walkAux_mem_iff (probe : String → ProbeOutcome) (root : String) :
    ∀ (fuel : Nat) (queue : List dependency) (visited : List String),
      (walkAux probe root fuel queue visited).2 = .done →
      ∀ b, b ∈ renderedBins (walkAux probe root fuel queue visited).1 ↔
        RA probe visited (queue.map dependency.bin) b := by
  intro fuel
  induction fuel with
  | zero =>
    intro queue visited hdone b
    cases queue with
    | nil =>
      simp only [walkAux, renderedBins_nil, List.not_mem_nil, List.map_nil, false_iff]
      exact RA_nil_front probe visited b
    | cons d rest => simp [walkAux] at hdone
  | succ n ih =>
    intro queue visited hdone b
    cases queue with
    | nil =>
      simp only [walkAux, renderedBins_nil, List.not_mem_nil, List.map_nil, false_iff]
      exact RA_nil_front probe visited b
    | cons d rest =>
      by_cases hv : d.bin ∈ visited
      · have hvc : visited.contains d.bin = true := List.elem_iff.mpr hv
        have heq : walkAux probe root (n + 1) (d :: rest) visited =
            walkAux probe root n rest visited := by simp [walkAux, hvc, hv]
        rw [heq] at hdone ⊢
        rw [List.map_cons, RA_cons_visited probe visited _ d.bin hv b]
        exact ih rest visited hdone b
      · have hvc : visited.contains d.bin = false := (contains_eq_false_iff _ _).mpr hv
        cases hp : probe d.bin with
        | ok deps =>
          have hdone2 : (walkAux probe root n (rest ++ deps) (d.bin :: visited)).2 =
              .done := by
            simpa only [walkAux, hvc, Bool.false_eq_true, if_false, hp] using hdone
          simp only [walkAux, hvc, Bool.false_eq_true, if_false, hp, renderedBins_cons,
            renderedBins_append, eventBins_render, renderedBins_edges, List.nil_append,
            List.singleton_append, List.map_cons]
          rw [RA_expand probe visited (rest.map dependency.bin) d.bin deps hv hp b]
          rw [List.mem_cons]
          have hih := ih (rest ++ deps) (d.bin :: visited) hdone2 b
          rw [List.map_append] at hih
          rw [hih]
        | probeError m =>
          simp only [walkAux, hvc, Bool.false_eq_true, if_false, hp] at hdone
          exact absurd hdone (by simp)
        | panicked m =>
          simp only [walkAux, hvc, Bool.false_eq_true, if_false, hp] at hdone
          exact absurd hdone (by simp)

/-! ## Termination of the walk loop -/

theorem probeOkInv_spec (probe : String → ProbeOutcome) (U : List String) (D : Nat)
    (h : probeOkInv probe U D = true) (b : String) (hb : b ∈ U)
    (deps : List dependency) (hp : probe b = .ok deps) :
    deps.length ≤ D ∧ ∀ dd ∈ deps, dd.bin ∈ U := by
  have h2 := List.all_eq_true.mp h b hb
  rw [hp] at h2
  simp only [Bool.and_eq_true, decide_eq_true_eq, List.all_eq_true] at h2
  exact ⟨h2.1, fun dd hdd => List.elem_iff.mp (h2.2 dd hdd)⟩

theorem probeAllOk_spec (probe : String → ProbeOutcome) (U : List String)
    (h : probeAllOk probe U = true) (b : String) (hb : b ∈ U) :
    ∃ deps, probe b = .ok deps := by
  have h2 := List.all_eq_true.mp h b hb
  cases hp : probe b with
  | ok deps => exact ⟨deps, rfl⟩
  | probeError m => rw [hp] at h2; simp at h2
  | panicked m => rw [hp] at h2; simp at h2

/-- Marking an unvisited member of a duplicate-free universe as visited
shrinks the count of unvisited universe members by exactly one. -/
theorem filter_visited_cons (x : String) (visited : List String) (hxv : x ∉ visited) :
    ∀ (U : List String), U.Nodup → x ∈ U →
      (U.filter fun b => !((x :: visited).contains b)).length + 1 =
      (U.filter fun b => !(visited.contains b)).length := by
  intro U
  induction U with
  | nil => intro _ hx; exact absurd hx (List.not_mem_nil _)
  | cons c U2 ih =>
    intro hnd hx
    have hnd2 := List.nodup_cons.mp hnd
    by_cases hcx : c = x
    · have hc1 : ((x :: visited).contains c) = true := by
        rw [hcx]; exact List.elem_iff.mpr (List.mem_cons_self _ _)
      have hc2 : (visited.contains c) = false := by
        rw [hcx]; exact (contains_eq_false_iff _ _).mpr hxv
      have hcong : U2.filter (fun b => !((x :: visited).contains b)) =
          U2.filter (fun b => !(visited.contains b)) := by
        apply List.filter_congr
        intro b hb
        have hbx : b ≠ x := by
          intro hc
          rw [← hcx] at hc
          exact hnd2.1 (hc ▸ hb)
        have : ((x :: visited).contains b) = (visited.contains b) := by
          cases hvb : visited.contains b with
          | true =>
            exact List.elem_iff.mpr (List.mem_cons_of_mem _ (List.elem_iff.mp hvb))
          | false =>
            rw [contains_eq_false_iff]
            intro hc
            rcases List.mem_cons.mp hc with h1 | h1
            · exact hbx h1
            · exact (contains_eq_false_iff _ _).mp hvb h1
        rw [this]
      simp only [List.filter_cons, hc1, hc2, Bool.not_true, Bool.not_false,
        Bool.false_eq_true, if_false, if_true, List.length_cons, hcong]
    · have hx2 : x ∈ U2 := by
        rcases List.mem_cons.mp hx with h1 | h1
        · exact absurd h1.symm hcx
        · exact h1
      have hsame : ((x :: visited).contains c) = (visited.contains c) := by
        cases hvb : visited.contains c with
        | true =>
          exact List.elem_iff.mpr (List.mem_cons_of_mem _ (List.elem_iff.mp hvb))
        | false =>
          rw [contains_eq_false_iff]
          intro hc
          rcases List.mem_cons.mp hc with h1 | h1
          · exact hcx h1
          · exact (contains_eq_false_iff _ _).mp hvb h1
      have hrec := ih hnd2.2 hx2
      cases hvc : visited.contains c with
      | true =>
        simp only [List.filter_cons, hsame, hvc, Bool.not_true, Bool.false_eq_true,
          if_false]
        exact hrec
      | false =>
        simp only [List.filter_cons, hsame, hvc, Bool.not_false, if_true,
          List.length_cons]
        omega

/-- With fuel at least the termination measure, the loop does not run out
of fuel: the Go loop terminates on every finite dependency graph, cyclic
graphs included, because the visited set grows monotonically and each
probe returns a finite list. -/
theorem walkAux_no_outOfFuel (probe : String → ProbeOutcome) (root : String)
    (U : List String) (D : Nat) (hU : U.Nodup) (hInv : probeOkInv probe U D = true) :
    ∀ (fuel : Nat) (queue : List dependency) (visited : List String),
      (∀ d ∈ queue, d.bin ∈ U) →
      (U.filter fun b => !(visited.contains b)).length * (D + 1) + queue.length ≤ fuel →
      (walkAux probe root fuel queue visited).2 ≠ .outOfFuel := by
  intro fuel
  induction fuel with
  | zero =>
    intro queue visited hq hm
    cases queue with
    | nil => simp [walkAux]
    | cons d rest =>
      rw [List.length_cons] at hm
      omega
  | succ n ih =>
    intro queue visited hq hm
    cases queue with
    | nil => simp [walkAux]
    | cons d rest =>
      by_cases hv : d.bin ∈ visited
      · have hvc : visited.contains d.bin = true := List.elem_iff.mpr hv
        rw [show walkAux probe root (n + 1) (d :: rest) visited =
              walkAux probe root n rest visited by simp [walkAux, hvc, hv]]
        apply ih rest visited (fun dd hdd => hq dd (List.mem_cons_of_mem _ hdd))
        rw [List.length_cons] at hm
        omega
      · have hvc : visited.contains d.bin = false := (contains_eq_false_iff _ _).mpr hv
        have hbU : d.bin ∈ U := hq d (List.mem_cons_self _ _)
        cases hp : probe d.bin with
        | ok deps =>
          have hspec := probeOkInv_spec probe U D hInv d.bin hbU deps hp
          have hq2 : ∀ dd ∈ rest ++ deps, dd.bin ∈ U := by
            intro dd hdd
            rcases List.mem_append.mp hdd with h1 | h1
            · exact hq dd (List.mem_cons_of_mem _ h1)
            · exact hspec.2 dd h1
          have hstep := filter_visited_cons d.bin visited hv U hU hbU
          have hmul : (U.filter fun b => !(visited.contains b)).length * (D + 1) =
              (U.filter fun b => !((d.bin :: visited).contains b)).length * (D + 1) +
                (D + 1) := by
            rw [← hstep, Nat.succ_mul]
          rw [hmul, List.length_cons] at hm
          have hrec := ih (rest ++ deps) (d.bin :: visited) hq2 (by
            rw [List.length_append]
            have hlen := hspec.1
            omega)
          intro hcontra
          apply hrec
          simpa only [walkAux, hvc, Bool.false_eq_true, if_false, hp] using hcontra
        | probeError m =>
          simp only [walkAux, hvc, Bool.false_eq_true, if_false, hp]
          simp
        | panicked m =>
          simp only [walkAux, hvc, Bool.false_eq_true, if_false, hp]
          simp

/-- With fuel at least the termination measure and a prober that succeeds
on the whole universe, the loop drains its queue. -/
theorem walkAux_done (probe : String → ProbeOutcome) (root : String)
    (U : List String) (D : Nat) (hU : U.Nodup) (hInv : probeOkInv probe U D = true)
    (hOk : probeAllOk probe U = true) :
    ∀ (fuel : Nat) (queue : List dependency) (visited : List String),
      (∀ d ∈ queue, d.bin ∈ U) →
      (U.filter fun b => !(visited.contains b)).length * (D + 1) + queue.length ≤ fuel →
      (walkAux probe root fuel queue visited).2 = .done := by
  intro fuel
  induction fuel with
  | zero =>
    intro queue visited hq hm
    cases queue with
    | nil => simp [walkAux]
    | cons d rest =>
      rw [List.length_cons] at hm
      omega
  | succ n ih =>
    intro queue visited hq hm
    cases queue with
    | nil => simp [walkAux]
    | cons d rest =>
      by_cases hv : d.bin ∈ visited
      · have hvc : visited.contains d.bin = true := List.elem_iff.mpr hv
        rw [show walkAux probe root (n + 1) (d :: rest) visited =
              walkAux probe root n rest visited by simp [walkAux, hvc, hv]]
        apply ih rest visited (fun dd hdd => hq dd (List.mem_cons_of_mem _ hdd))
        rw [List.length_cons] at hm
        omega
      · have hvc : visited.contains d.bin = false := (contains_eq_false_iff _ _).mpr hv
        have hbU : d.bin ∈ U := hq d (List.mem_cons_self _ _)
        rcases probeAllOk_spec probe U hOk d.bin hbU with ⟨deps, hp⟩
        have hspec := probeOkInv_spec probe U D hInv d.bin hbU deps hp
        have hq2 : ∀ dd ∈ rest ++ deps, dd.bin ∈ U := by
          intro dd hdd
          rcases List.mem_append.mp hdd with h1 | h1
          · exact hq dd (List.mem_cons_of_mem _ h1)
          · exact hspec.2 dd h1
        have hstep := filter_visited_cons d.bin visited hv U hU hbU
        have hmul : (U.filter fun b => !(visited.contains b)).length * (D + 1) =
            (U.filter fun b => !((d.bin :: visited).contains b)).length * (D + 1) +
              (D + 1) := by
          rw [← hstep, Nat.succ_mul]
        rw [hmul, List.length_cons] at hm
        have hrec := ih (rest ++ deps) (d.bin :: visited) hq2 (by
          rw [List.length_append]
          have hlen := hspec.1
          omega)
        simp only [walkAux, hvc, Bool.false_eq_true, if_false, hp]
        exact hrec

/-! ## Lemmas about the prober and the main loop -/

/-- A probe-error outcome of the loop is the error of some probed binary. -/
theorem walkAux_probeError_src (probe : String → ProbeOutcome) (root : String) :
    ∀ (fuel : Nat) (queue : List dependency) (visited : List String) (m : String),
      (walkAux probe root fuel queue visited).2 = .probeError m →
      ∃ b, probe b = .probeError m := by
  intro fuel
  induction fuel with
  | zero =>
    intro queue visited m h
    cases queue with
    | nil => simp [walkAux] at h
    | cons d rest => simp [walkAux] at h
  | succ n ih =>
    intro queue visited m h
    cases queue with
    | nil => simp [walkAux] at h
    | cons d rest =>
      by_cases hv : d.bin ∈ visited
      · have hvc : visited.contains d.bin = true := List.elem_iff.mpr hv
        rw [show walkAux probe root (n + 1) (d :: rest) visited =
              walkAux probe root n rest visited by simp [walkAux, hvc, hv]] at h
        exact ih rest visited m h
      · have hvc : visited.contains d.bin = false := (contains_eq_false_iff _ _).mpr hv
        cases hp : probe d.bin with
        | ok deps =>
          simp only [walkAux, hvc, Bool.false_eq_true, if_false, hp] at h
          exact ih (rest ++ deps) (d.bin :: visited) m h
        | probeError m2 =>
          simp only [walkAux, hvc, Bool.false_eq_true, if_false, hp,
            LoopResult.probeError.injEq] at h
          exact ⟨d.bin, by rw [hp, h]⟩
        | panicked m2 =>
          simp only [walkAux, hvc, Bool.false_eq_true, if_false, hp] at h
          exact LoopResult.noConfusion h

/-- Every dependency the parse loop adds beyond its accumulator has a
resolved path different from the probed binary: the self filter. -/
theorem parseDepLines_no_self (bin : String) :
    ∀ (lines : List String) (acc : List dependency),
      ∀ d ∈ (parseDepLines bin acc lines).1, d ∈ acc ∨ d.bin ≠ bin := by
  intro lines
  induction lines with
  | nil => intro acc d hd; exact Or.inl hd
  | cons line rest ih =>
    intro acc d hd
    cases hm : depReMatch line.data with
    | none =>
      simp only [parseDepLines, hm] at hd
      exact Or.inl hd
    | some pi =>
      obtain ⟨p, info⟩ := pi
      by_cases hself : resolveDepPath bin ⟨p⟩ = bin
      · simp only [parseDepLines, hm, hself, if_true] at hd
        exact ih acc d hd
      · simp only [parseDepLines, hm, hself, if_false] at hd
        rcases ih (acc ++ [⟨resolveDepPath bin ⟨p⟩, ⟨info⟩⟩]) d hd with h1 | h1
        · rcases List.mem_append.mp h1 with h2 | h2
          · exact Or.inl h2
          · right
            rw [List.mem_singleton.mp h2]
            exact hself
        · exact Or.inr h1

/-- The parse loop never produces a probe error: it either returns
normally or panics on an unexpected line. -/
theorem parseDepLines_not_probeError (bin : String) :
    ∀ (lines : List String) (acc : List dependency) (m : String),
      (parseDepLines bin acc lines).2 ≠ .probeError m := by
  intro lines
  induction lines with
  | nil => intro acc m h; simp [parseDepLines] at h
  | cons line rest ih =>
    intro acc m h
    cases hm : depReMatch line.data with
    | none => simp only [parseDepLines, hm] at h; simp at h
    | some pi =>
      obtain ⟨p, info⟩ := pi
      by_cases hself : resolveDepPath bin ⟨p⟩ = bin
      · simp only [parseDepLines, hm, hself, if_true] at h
        exact ih acc m h
      · simp only [parseDepLines, hm, hself, if_false] at h
        exact ih _ m h

/-- The induced prober reports a probe error exactly when otool exits
non-zero, and the error message then names the probed binary. -/
theorem probeOf_probeError (otool : String → CmdOutcome) (b m : String)
    (h : probeOf otool b = .probeError m) :
    m = "otool error when processing " ++ b ∧ ∃ stderr, otool b = .exitError stderr := by
  cases hc : otool b with
  | output lines =>
    simp only [probeOf, appendDirectDeps, hc] at h
    rcases hpp : parseDepLines b [] (lines.drop 1) with ⟨ds, r⟩
    rw [hpp] at h
    cases r with
    | ok => simp at h
    | probeError m2 =>
      exact absurd (congrArg Prod.snd hpp) (by simp [parseDepLines_not_probeError b _ [] m2])
    | panicked m2 => simp at h
  | exitError stderr =>
    simp only [probeOf, appendDirectDeps, hc, ProbeOutcome.probeError.injEq] at h
    exact ⟨h.symm, stderr, rfl⟩
  | startError msg =>
    simp only [probeOf, appendDirectDeps, hc] at h
    exact ProbeOutcome.noConfusion h

/-- A successful probe of the induced prober never reports the probed
binary as its own dependency. -/
theorem probeOf_ok_no_self (otool : String → CmdOutcome) (b : String)
    (ds : List dependency) (h : probeOf otool b = .ok ds) :
    ∀ d ∈ ds, d.bin ≠ b := by
  cases hc : otool b with
  | output lines =>
    simp only [probeOf, appendDirectDeps, hc] at h
    rcases hpp : parseDepLines b [] (lines.drop 1) with ⟨ds2, r⟩
    rw [hpp] at h
    cases r with
    | ok =>
      simp only [ProbeOutcome.ok.injEq] at h
      intro d hd
      have hd2 : d ∈ (parseDepLines b [] (lines.drop 1)).1 := by
        rw [hpp]
        simpa [h] using hd
      rcases parseDepLines_no_self b (lines.drop 1) [] d hd2 with h1 | h1
      · exact absurd h1 (List.not_mem_nil _)
      · exact h1
    | probeError m2 => simp at h
    | panicked m2 => simp at h
  | exitError stderr =>
    simp only [probeOf, appendDirectDeps, hc] at h
    exact ProbeOutcome.noConfusion h
  | startError msg =>
    simp only [probeOf, appendDirectDeps, hc] at h
    exact ProbeOutcome.noConfusion h

/-- Unfolding of walk on a successful root resolution. -/
theorem walk_eq_ok (abs : String → Except String String) (probe : String → ProbeOutcome)
    (fuel : Nat) (root root2 : String) (h : abs root = .ok root2) :
    walk abs probe fuel root =
      (Event.prologue :: (walkAux probe root2 fuel [⟨root2, ""⟩] []).1 ++ [Event.epilogue],
       liftLoop (walkAux probe root2 fuel [⟨root2, ""⟩] []).2) := by
  simp [walk, h]

/-- Unfolding of walk on a failed root resolution: no event at all. -/
theorem walk_eq_error (abs : String → Except String String) (probe : String → ProbeOutcome)
    (fuel : Nat) (root e : String) (h : abs root = .error e) :
    walk abs probe fuel root =
      ([], .absError ("cannot get " ++ root ++ " absolute path: " ++ e)) := by
  simp [walk, h]

/-- Unfolding of runRoots when the first root panics: processing stops. -/
theorem runRoots_cons_panic (abs : String → Except String String)
    (probe : String → ProbeOutcome) (fuel : Nat) (r : String) (rs : List String)
    (m : String) (h : (walk abs probe fuel r).2 = .panicked m) :
    runRoots abs probe fuel (r :: rs) =
      ([⟨r, (walk abs probe fuel r).1, .panicked m⟩], [], some m) := by
  simp [runRoots, h]

/-- Unfolding of runRoots when the first root does not panic: it is
recorded, its error (if any) logged, and the rest processed. -/
theorem runRoots_cons_no_panic (abs : String → Except String String)
    (probe : String → ProbeOutcome) (fuel : Nat) (r : String) (rs : List String)
    (h : ∀ m, (walk abs probe fuel r).2 ≠ .panicked m) :
    runRoots abs probe fuel (r :: rs) =
      (⟨r, (walk abs probe fuel r).1, (walk abs probe fuel r).2⟩ ::
          (runRoots abs probe fuel rs).1,
       (match walkErrMsg (walk abs probe fuel r).2 with
        | some m => logLine r m :: (runRoots abs probe fuel rs).2.1
        | none => (runRoots abs probe fuel rs).2.1),
       (runRoots abs probe fuel rs).2.2) := by
  cases hr : (walk abs probe fuel r).2 with
  | panicked m => exact absurd hr (h m)
  | done => simp [runRoots, hr, walkErrMsg]
  | absError m => simp [runRoots, hr, walkErrMsg]
  | probeError m => simp [runRoots, hr, walkErrMsg]
  | outOfFuel => simp [runRoots, hr, walkErrMsg]

/-- When no root panics, the main loop records every root in order, each
with its own independent walk, logs exactly the per-root errors and does
not die: one root's failure never disturbs the others. -/
theorem runRoots_no_panic (abs : String → Except String String)
    (probe : String → ProbeOutcome) (fuel : Nat) :
    ∀ args : List String,
      (∀ a ∈ args, ∀ m, (walk abs probe fuel a).2 ≠ .panicked m) →
      runRoots abs probe fuel args =
        (args.map fun a => ⟨a, (walk abs probe fuel a).1, (walk abs probe fuel a).2⟩,
         args.filterMap (fun a => (walkErrMsg (walk abs probe fuel a).2).map (logLine a)),
         none) := by
  intro args
  induction args with
  | nil => intro _; rfl
  | cons r rs ih =>
    intro h
    rw [runRoots_cons_no_panic abs probe fuel r rs (h r (List.mem_cons_self _ _))]
    rw [ih (fun a ha m => h a (List.mem_cons_of_mem _ ha) m)]
    cases hw : walkErrMsg (walk abs probe fuel r).2 with
    | some m => simp [List.filterMap_cons, hw]
    | none => simp [List.filterMap_cons, hw]

@[simp] theorem eventBins_prologue : eventBins Event.prologue = [] := rfl

@[simp] theorem eventBins_epilogue : eventBins Event.epilogue = [] := rfl

/-- The unvisited count at the start of a traversal is the whole universe:
the starting measure is within the fuel bound. -/
theorem initial_measure (U : List String) (D : Nat) :
    (U.filter fun b => !(([] : List String).contains b)).length * (D + 1) + 1 ≤
      fuelBound U D := by
  have h : (U.filter fun b => !(([] : List String).contains b)) = U := by
    induction U with
    | nil => rfl
    | cons c U2 ih => simp [List.filter_cons, ih]
  rw [h, fuelBound]

/-! ## The claims -/

/-- C1: for every finite acyclic dependency graph reported by the prober
(a prober succeeding on a duplicate-free universe that is closed under
dependencies and bounds their number), walk visits exactly the set of
binaries reachable from the resolved root, and each such binary is
rendered exactly once — by printRootBin for the root and by printDepBin
for every other binary — regardless of graph shape. -/
theorem walk_visits_exactly_reachable
    (abs : String → Except String String) (probe : String → ProbeOutcome)
    (U : List String) (D : Nat) (root root2 : String)
    (habs : abs root = .ok root2) (hU : U.Nodup) (hroot : root2 ∈ U)
    (hInv : probeOkInv probe U D = true) (hOk : probeAllOk probe U = true) :
    (walk abs probe (fuelBound U D) root).2 = .done ∧
    (∀ b, b ∈ renderedBins (walk abs probe (fuelBound U D) root).1 ↔
      Reaches probe root2 b) ∧
    (∀ b, Reaches probe root2 b →
      (renderedBins (walk abs probe (fuelBound U D) root).1).count b = 1) ∧
    (∀ b, Event.rootBin b ∈ (walk abs probe (fuelBound U D) root).1 → b = root2) ∧
    (∀ d : dependency, Event.depBin d ∈ (walk abs probe (fuelBound U D) root).1 →
      d.bin ≠ root2) := by
  rw [walk_eq_ok abs probe (fuelBound U D) root root2 habs]
  have hq : ∀ d ∈ [(⟨root2, ""⟩ : dependency)], d.bin ∈ U := by
    intro d hd
    rw [List.mem_singleton.mp hd]
    exact hroot
  have hm : (U.filter fun b => !(([] : List String).contains b)).length * (D + 1) +
      [(⟨root2, ""⟩ : dependency)].length ≤ fuelBound U D := initial_measure U D
  have hdone := walkAux_done probe root2 U D hU hInv hOk (fuelBound U D)
    [⟨root2, ""⟩] [] hq hm
  have hfresh := walkAux_fresh_nodup probe root2 (fuelBound U D) [⟨root2, ""⟩] []
  have hmem : ∀ b, b ∈ renderedBins (walkAux probe root2 (fuelBound U D)
      [⟨root2, ""⟩] []).1 ↔ Reaches probe root2 b := by
    intro b
    rw [walkAux_mem_iff probe root2 (fuelBound U D) [⟨root2, ""⟩] [] hdone b]
    rw [show List.map dependency.bin [(⟨root2, ""⟩ : dependency)] = [root2] from rfl]
    exact RA_root_iff probe root2 b
  refine ⟨?_, ?_, ?_, ?_, ?_⟩
  · rw [hdone]; rfl
  · intro b
    simpa using hmem b
  · intro b hb
    have hbm : b ∈ renderedBins (walkAux probe root2 (fuelBound U D)
        [⟨root2, ""⟩] []).1 := (hmem b).mpr hb
    simpa using List.count_eq_one_of_mem hfresh.2 hbm
  · intro b hb
    simp only [List.cons_append, List.mem_cons, List.mem_append, List.mem_singleton] at hb
    rcases hb with hb | hb | hb | hb
    · exact Event.noConfusion hb
    · rcases walkAux_class probe root2 (fuelBound U D) [⟨root2, ""⟩] [] _ hb with
        h2 | ⟨d2, h2, _⟩ | ⟨s, t, h2⟩
      · exact (Event.rootBin.injEq _ _ ▸ h2)
      · exact absurd h2 (fun hc => Event.noConfusion hc)
      · exact absurd h2 (fun hc => Event.noConfusion hc)
    · exact Event.noConfusion hb
    · exact absurd hb (List.not_mem_nil _)
  · intro d hd
    simp only [List.cons_append, List.mem_cons, List.mem_append, List.mem_singleton] at hd
    rcases hd with hd | hd | hd | hd
    · exact Event.noConfusion hd
    · rcases walkAux_class probe root2 (fuelBound U D) [⟨root2, ""⟩] [] _ hd with
        h2 | ⟨d2, h2, hne⟩ | ⟨s, t, h2⟩
      · exact absurd h2 (fun hc => Event.noConfusion hc)
      · have hdd : d = d2 := Event.depBin.injEq _ _ ▸ h2
        rw [hdd]
        exact hne
      · exact absurd h2 (fun hc => Event.noConfusion hc)
    · exact Event.noConfusion hd
    · exact absurd hd (List.not_mem_nil _)

/-- C1 witness: the sample graph with /bin/app depending on
/usr/lib/libc.dylib, walked from /bin/app. -/
theorem walk_visits_exactly_reachable_witness :
    (walk (fun s => .ok s) (probeOf otoolSample)
        (fuelBound ["/bin/app", "/usr/lib/libc.dylib"] 1) "/bin/app").2 = .done ∧
    (∀ b, b ∈ renderedBins (walk (fun s => .ok s) (probeOf otoolSample)
        (fuelBound ["/bin/app", "/usr/lib/libc.dylib"] 1) "/bin/app").1 ↔
      Reaches (probeOf otoolSample) "/bin/app" b) ∧
    (∀ b, Reaches (probeOf otoolSample) "/bin/app" b →
      (renderedBins (walk (fun s => .ok s) (probeOf otoolSample)
        (fuelBound ["/bin/app", "/usr/lib/libc.dylib"] 1) "/bin/app").1).count b = 1) ∧
    (∀ b, Event.rootBin b ∈ (walk (fun s => .ok s) (probeOf otoolSample)
        (fuelBound ["/bin/app", "/usr/lib/libc.dylib"] 1) "/bin/app").1 →
      b = "/bin/app") ∧
    (∀ d : dependency, Event.depBin d ∈ (walk (fun s => .ok s) (probeOf otoolSample)
        (fuelBound ["/bin/app", "/usr/lib/libc.dylib"] 1) "/bin/app").1 →
      d.bin ≠ "/bin/app") :=
  walk_visits_exactly_reachable (fun s => .ok s) (probeOf otoolSample)
    ["/bin/app", "/usr/lib/libc.dylib"] 1 "/bin/app" "/bin/app"
    rfl (by decide) (by decide) (by decide) (by decide)

/-- C2: for every finite dependency graph, including graphs with cycles,
the walk loop terminates — the visited set grows monotonically and each
probe returns a finite list bounded within the universe — and every binary
is rendered at most once even on a cyclic graph. -/
theorem walk_loop_terminates
    (probe : String → ProbeOutcome) (U : List String) (D : Nat) (root : String)
    (hU : U.Nodup) (hroot : root ∈ U) (hInv : probeOkInv probe U D = true) :
    (walkAux probe root (fuelBound U D) [⟨root, ""⟩] []).2 ≠ .outOfFuel ∧
    ∀ b, (renderedBins (walkAux probe root (fuelBound U D) [⟨root, ""⟩] []).1).count b ≤ 1 := by
  have hq : ∀ d ∈ [(⟨root, ""⟩ : dependency)], d.bin ∈ U := by
    intro d hd
    rw [List.mem_singleton.mp hd]
    exact hroot
  refine ⟨walkAux_no_outOfFuel probe root U D hU hInv (fuelBound U D) [⟨root, ""⟩] [] hq
    (initial_measure U D), ?_⟩
  intro b
  exact List.nodup_iff_count_le_one.mp
    (walkAux_fresh_nodup probe root (fuelBound U D) [⟨root, ""⟩] []).2 b

/-- C2 witness: the two-binary cycle /A depends on /B and /B on /A. -/
theorem walk_loop_terminates_witness :
    (walkAux probeCyc "/A" (fuelBound ["/A", "/B"] 1) [⟨"/A", ""⟩] []).2 ≠ .outOfFuel ∧
    ∀ b, (renderedBins (walkAux probeCyc "/A" (fuelBound ["/A", "/B"] 1)
      [⟨"/A", ""⟩] []).1).count b ≤ 1 :=
  walk_loop_terminates probeCyc ["/A", "/B"] 1 "/A" (by decide) (by decide) (by decide)

/-- C8: de-duplication is authoritative at dequeue time only: a binary may
be enqueued repeatedly but every binary is rendered at most once, and for
every rendered binary whose probe succeeded the trace carries exactly one
printDep event per dependency the probe returned — even when the edge's
target is already visited or already enqueued. -/
theorem walk_dedup_at_dequeue (probe : String → ProbeOutcome) (root : String)
    (fuel : Nat) (b : String) (deps : List dependency) (hp : probe b = .ok deps)
    (hb : b ∈ renderedBins (walkAux probe root fuel [⟨root, ""⟩] []).1) :
    (walkAux probe root fuel [⟨root, ""⟩] []).1.filter (isDepSrc b) =
      (deps.map fun dd => Event.dep b dd.bin) ∧
    ∀ c, (renderedBins (walkAux probe root fuel [⟨root, ""⟩] []).1).count c ≤ 1 := by
  refine ⟨walkAux_edges_of_rendered probe root fuel [⟨root, ""⟩] [] b deps hp hb, ?_⟩
  intro c
  exact List.nodup_iff_count_le_one.mp
    (walkAux_fresh_nodup probe root fuel [⟨root, ""⟩] []).2 c

/-- C8 witness: in the diamond graph, /C is enqueued by both /A and /B and
rendered once, and visiting /C still emits its edge back to the already
visited /A. -/
theorem walk_dedup_at_dequeue_witness :
    (walkAux probeDiamond "/R" 9 [⟨"/R", ""⟩] []).1.filter (isDepSrc "/C") =
      ([⟨"/A", "(v)"⟩] : List dependency).map (fun dd => Event.dep "/C" dd.bin) ∧
    ∀ c, (renderedBins (walkAux probeDiamond "/R" 9 [⟨"/R", ""⟩] []).1).count c ≤ 1 :=
  walk_dedup_at_dequeue probeDiamond "/R" 9 "/C" [⟨"/A", "(v)"⟩] rfl (by decide)

/-- C3: a dependency entry whose resolved path equals the probed binary's
own path is filtered out by the prober (the appendDirectDeps of the later
revision; the earlier revision lacks this filter), so it is never emitted
as a self-edge by printDep and never rendered as a duplicate node. -/
theorem prober_filters_self_dependency
    (otool : String → CmdOutcome) (deps0 : List dependency) (bin : String) :
    (∀ d ∈ (appendDirectDeps deps0 bin (otool bin)).1, d ∈ deps0 ∨ d.bin ≠ bin) ∧
    (∀ (root : String) (fuel : Nat) (b : String),
      Event.dep b b ∉ (walkAux (probeOf otool) root fuel [⟨root, ""⟩] []).1) ∧
    (∀ (root : String) (fuel : Nat) (c : String),
      (renderedBins (walkAux (probeOf otool) root fuel [⟨root, ""⟩] []).1).count c ≤ 1) := by
  refine ⟨?_, ?_, ?_⟩
  · intro d hd
    cases hc : otool bin with
    | output lines =>
      rw [hc] at hd
      exact parseDepLines_no_self bin (lines.drop 1) deps0 d hd
    | exitError stderr =>
      rw [hc] at hd
      exact Or.inl hd
    | startError msg =>
      rw [hc] at hd
      exact Or.inl hd
  · intro root fuel b h
    rcases walkAux_dep_mem (probeOf otool) root fuel [⟨root, ""⟩] [] b b h with
      ⟨ds, hp, hb⟩
    rcases List.mem_map.mp hb with ⟨dd, hdd, hbin⟩
    exact probeOf_ok_no_self otool b ds hp dd hdd hbin
  · intro root fuel c
    exact List.nodup_iff_count_le_one.mp
      (walkAux_fresh_nodup (probeOf otool) root fuel [⟨root, ""⟩] []).2 c

/-- C3 witness: /A restated as its own dependency never yields the
self-edge printDep("/A", "/A"). -/
theorem prober_filters_self_dependency_witness :
    Event.dep "/A" "/A" ∉ (walkAux (probeOf otoolSelf) "/A" 3 [⟨"/A", ""⟩] []).1 :=
  (prober_filters_self_dependency otoolSelf [] "/A").2.1 "/A" 3 "/A"

/-- The leftmost occurrence of the relative marker in a path that starts
with it is its 17-character prefix. -/
theorem replaceFirstL_of_marker (rep : List Char) :
    ∀ l : List Char, relMarker.isPrefixOf l = true →
      replaceFirstL l relMarker rep = rep ++ l.drop 17 := by
  intro l h
  cases l with
  | nil => exact absurd h (by decide)
  | cons c rest =>
    simp only [replaceFirstL]
    rw [if_pos h]
    rfl

/-- C4: a reported dependency path beginning with "@executable_path/" is
resolved by substituting the directory of the probed binary plus a
separator for the marker and cleaning the result; in particular
"@executable_path/../lib/x.dylib" for a binary at /opt/app/bin/app
resolves to /opt/app/lib/x.dylib; any other path is returned unchanged. -/
theorem resolveDepPath_spec :
    (∀ bin path : String, relMarker.isPrefixOf path.data = true →
      resolveDepPath bin path =
        ⟨goCleanList (goDirList bin.data ++ '/' :: path.data.drop 17)⟩) ∧
    resolveDepPath "/opt/app/bin/app" "@executable_path/../lib/x.dylib" =
      "/opt/app/lib/x.dylib" ∧
    (∀ bin path : String, relMarker.isPrefixOf path.data = false →
      resolveDepPath bin path = path) := by
  refine ⟨?_, ?_, ?_⟩
  · intro bin path h
    rw [resolveDepPath, if_pos h]
    rw [replaceFirstL_of_marker (goDirList bin.data ++ ['/']) path.data h]
    rw [List.append_assoc, List.singleton_append]
  · rfl
  · intro bin path h
    rw [resolveDepPath, if_neg (by rw [h]; exact Bool.false_ne_true)]

/-- C4 witness: a marker path resolved against a binary in /a/b. -/
theorem resolveDepPath_spec_witness :
    resolveDepPath "/a/b/c" "@executable_path/lib/y.dylib" =
      ⟨goCleanList (goDirList "/a/b/c".data ++ '/' ::
        "@executable_path/lib/y.dylib".data.drop 17)⟩ :=
  resolveDepPath_spec.1 "/a/b/c" "@executable_path/lib/y.dylib" (by decide)

/-- Inversion of liftLoop on a probe error. -/
theorem liftLoop_probeError_inv (r : LoopResult) (m : String)
    (h : liftLoop r = .probeError m) : r = .probeError m := by
  cases r with
  | done => exact WalkResult.noConfusion h
  | probeError m2 =>
    have h2 : m2 = m := WalkResult.probeError.injEq _ _ ▸ h
    rw [h2]
  | panicked m2 => exact WalkResult.noConfusion h
  | outOfFuel => exact WalkResult.noConfusion h

/-- The induced prober panics when appendDirectDeps does. -/
theorem probeOf_panicked_of_append (otool : String → CmdOutcome) (bin m : String)
    (h : (appendDirectDeps [] bin (otool bin)).2 = .panicked m) :
    probeOf otool bin = .panicked m := by
  rcases happ : appendDirectDeps [] bin (otool bin) with ⟨ds, r⟩
  rw [happ] at h
  cases r with
  | ok => exact absurd h (by simp)
  | probeError m2 => exact absurd h (by simp)
  | panicked m2 =>
    have h2 : DepsResult.panicked m2 = DepsResult.panicked m := h
    have h3 : m2 = m := DepsResult.panicked.injEq _ _ ▸ h2
    simp only [probeOf, happ]
    rw [h3]

/-- A panic while probing the first root kills the whole run: that root is
the only one recorded, the panic message is reported and the process dies
with the runtime's panic exit code. -/
theorem totoolMain_panics_on_first (abs : String → Except String String)
    (probe : String → ProbeOutcome) (f : Nat) (bin : String) (rs : List String)
    (m : String) (habs : abs bin = .ok bin) (hprobe : probe bin = .panicked m) :
    (totoolMain abs probe (f + 1) (bin :: rs)).panicMsg = some m ∧
    (totoolMain abs probe (f + 1) (bin :: rs)).runs.length = 1 ∧
    (totoolMain abs probe (f + 1) (bin :: rs)).exitCode = 2 := by
  have hstep : walkAux probe bin (f + 1) [⟨bin, ""⟩] [] =
      ([if bin = bin then Event.rootBin bin else Event.depBin ⟨bin, ""⟩],
       .panicked m) := by
    simp [walkAux, hprobe]
  have hwalk : (walk abs probe (f + 1) bin).2 = .panicked m := by
    rw [walk_eq_ok abs probe (f + 1) bin bin habs]
    show liftLoop (walkAux probe bin (f + 1) [⟨bin, ""⟩] []).2 = _
    rw [hstep]
    rfl
  have hrr := runRoots_cons_panic abs probe (f + 1) bin rs m hwalk
  rw [totoolMain, if_neg (List.cons_ne_nil bin rs), hrr]
  exact ⟨rfl, rfl, rfl⟩

@[simp] theorem renderAll_nil (pr : Event → String) : renderAll pr [] = "" := rfl

@[simp] theorem renderAll_cons (pr : Event → String) (e : Event) (evs : List Event) :
    renderAll pr (e :: evs) = pr e ++ renderAll pr evs := rfl

theorem renderAll_append (pr : Event → String) (l m : List Event) :
    renderAll pr (l ++ m) = renderAll pr l ++ renderAll pr m := by
  induction l with
  | nil => simp [String.empty_append]
  | cons e l2 ih => simp [ih, String.append_assoc]

/-- C5: a non-zero utility exit while probing one root aborts only that
root with a ProbeError naming the failing binary; the error is logged with
the argument as prefix, all remaining roots are still processed and
rendered, and the final exit code reflects only usage, never per-path
probe failures. -/
theorem probe_failure_is_isolated
    (abs : String → Except String String) (otool : String → CmdOutcome)
    (fuel : Nat) (args : List String) (hne : ¬ args = [])
    (hnp : ∀ a ∈ args, ∀ m, (walk abs (probeOf otool) fuel a).2 ≠ .panicked m) :
    (totoolMain abs (probeOf otool) fuel args).runs =
      (args.map fun a => ⟨a, (walk abs (probeOf otool) fuel a).1,
        (walk abs (probeOf otool) fuel a).2⟩) ∧
    (totoolMain abs (probeOf otool) fuel args).panicMsg = none ∧
    (totoolMain abs (probeOf otool) fuel args).exitCode = 0 ∧
    (∀ a ∈ args, ∀ m, (walk abs (probeOf otool) fuel a).2 = .probeError m →
      (∃ b, probeOf otool b = .probeError m ∧
        m = "otool error when processing " ++ b) ∧
      logLine a m ∈ (totoolMain abs (probeOf otool) fuel args).logs) := by
  have hrr := runRoots_no_panic abs (probeOf otool) fuel args hnp
  rw [totoolMain, if_neg hne, hrr]
  refine ⟨rfl, rfl, rfl, ?_⟩
  intro a ha m hm
  constructor
  · cases habs : abs a with
    | error e =>
      rw [walk_eq_error abs (probeOf otool) fuel a e habs] at hm
      exact absurd hm (by simp)
    | ok r2 =>
      rw [walk_eq_ok abs (probeOf otool) fuel a r2 habs] at hm
      have hcore := liftLoop_probeError_inv _ m hm
      rcases walkAux_probeError_src (probeOf otool) r2 fuel [⟨r2, ""⟩] [] m hcore with
        ⟨b, hb⟩
      rcases probeOf_probeError otool b m hb with ⟨hmsg, _⟩
      exact ⟨b, hb, hmsg⟩
  · show logLine a m ∈
      args.filterMap fun a2 => (walkErrMsg (walk abs (probeOf otool) fuel a2).2).map
        (logLine a2)
    apply List.mem_filterMap.mpr
    exact ⟨a, ha, by rw [hm]; rfl⟩

/-- C5 witness: a failing first root /bad and a healthy second root. -/
theorem probe_failure_is_isolated_witness :
    (totoolMain (fun s => .ok s) (probeOf otoolMixed) 3 ["/bad", "/bin/app"]).runs =
      (["/bad", "/bin/app"].map fun a =>
        ⟨a, (walk (fun s => .ok s) (probeOf otoolMixed) 3 a).1,
         (walk (fun s => .ok s) (probeOf otoolMixed) 3 a).2⟩) ∧
    (totoolMain (fun s => .ok s) (probeOf otoolMixed) 3 ["/bad", "/bin/app"]).panicMsg =
      none ∧
    (totoolMain (fun s => .ok s) (probeOf otoolMixed) 3 ["/bad", "/bin/app"]).exitCode =
      0 ∧
    (∀ a ∈ ["/bad", "/bin/app"], ∀ m,
      (walk (fun s => .ok s) (probeOf otoolMixed) 3 a).2 = .probeError m →
      (∃ b, probeOf otoolMixed b = .probeError m ∧
        m = "otool error when processing " ++ b) ∧
      logLine a m ∈
        (totoolMain (fun s => .ok s) (probeOf otoolMixed) 3 ["/bad", "/bin/app"]).logs) :=
  probe_failure_is_isolated (fun s => .ok s) otoolMixed 3 ["/bad", "/bin/app"]
    (by decide)
    (by
      intro a ha m hcontra
      rcases List.mem_cons.mp ha with h1 | h1
      · rw [h1] at hcontra
        rw [show (walk (fun s => Except.ok s) (probeOf otoolMixed) 3 "/bad").2 =
              .probeError "otool error when processing /bad" from rfl] at hcontra
        exact WalkResult.noConfusion hcontra
      · rw [List.mem_singleton.mp h1] at hcontra
        rw [show (walk (fun s => Except.ok s) (probeOf otoolMixed) 3 "/bin/app").2 =
              .done from rfl] at hcontra
        exact WalkResult.noConfusion hcontra)

/-- When any line of its input fails to match depRe, the parse loop ends
in the unexpected-output panic naming the first such line: a malformed
line at any position is never skipped and never yields a normal return. -/
theorem parseDepLines_panics_of_bad (bin : String) :
    ∀ (lines : List String) (acc : List dependency) (line : String),
      line ∈ lines → depReMatch line.data = none →
      ∃ bad, bad ∈ lines ∧ depReMatch bad.data = none ∧
        (parseDepLines bin acc lines).2 =
          .panicked ("unexpected otool output: " ++ bad) := by
  intro lines
  induction lines with
  | nil => intro acc line h _; exact absurd h (List.not_mem_nil _)
  | cons l rest ih =>
    intro acc line hmem hbad
    cases hm : depReMatch l.data with
    | none =>
      refine ⟨l, List.mem_cons_self _ _, hm, ?_⟩
      simp only [parseDepLines, hm]
    | some pi =>
      obtain ⟨p, info⟩ := pi
      have hline2 : line ∈ rest := by
        rcases List.mem_cons.mp hmem with h1 | h1
        · rw [h1] at hbad
          exact Option.noConfusion (hbad.symm.trans hm)
        · exact h1
      by_cases hself : resolveDepPath bin ⟨p⟩ = bin
      · rcases ih acc line hline2 hbad with ⟨bad, hb1, hb2, hb3⟩
        refine ⟨bad, List.mem_cons_of_mem _ hb1, hb2, ?_⟩
        simp only [parseDepLines, hm, hself, if_true]
        exact hb3
      · rcases ih (acc ++ [⟨resolveDepPath bin ⟨p⟩, ⟨info⟩⟩]) line hline2 hbad with
          ⟨bad, hb1, hb2, hb3⟩
        refine ⟨bad, List.mem_cons_of_mem _ hb1, hb2, ?_⟩
        simp only [parseDepLines, hm, hself, if_false]
        exact hb3

/-- C6: whenever any utility output line after the first fails to match
the expected shape — at any position, not just right after the skipped
first line — the prober raises the unexpected-output panic naming the
first such line instead of skipping it, and the panic terminates the
whole run: later root arguments are not processed. -/
theorem unexpected_output_panics
    (otool : String → CmdOutcome) (bin : String) (lines : List String) (line : String)
    (hmem : line ∈ lines.drop 1) (hline : depReMatch line.data = none)
    (hout : otool bin = .output lines) :
    ∃ bad, bad ∈ lines.drop 1 ∧ depReMatch bad.data = none ∧
      (appendDirectDeps [] bin (otool bin)).2 =
        .panicked ("unexpected otool output: " ++ bad) ∧
      ∀ (abs : String → Except String String) (f : Nat) (rs : List String),
        abs bin = .ok bin →
        (totoolMain abs (probeOf otool) (f + 1) (bin :: rs)).panicMsg =
          some ("unexpected otool output: " ++ bad) ∧
        (totoolMain abs (probeOf otool) (f + 1) (bin :: rs)).runs.length = 1 := by
  rcases parseDepLines_panics_of_bad bin (lines.drop 1) [] line hmem hline with
    ⟨bad, hb1, hb2, hb3⟩
  have happ : (appendDirectDeps [] bin (otool bin)).2 =
      .panicked ("unexpected otool output: " ++ bad) := by
    rw [hout]
    exact hb3
  refine ⟨bad, hb1, hb2, happ, ?_⟩
  intro abs f rs habs
  have hprobe := probeOf_panicked_of_append otool bin _ happ
  have h3 := totoolMain_panics_on_first abs (probeOf otool) f bin rs _ habs hprobe
  exact ⟨h3.1, h3.2.1⟩

/-- C6 witness: the malformed line "garbage" sits after a well-formed
dependency line, and the whole two-root run still dies on the first
root. -/
theorem unexpected_output_panics_witness :
    ∃ bad, bad ∈ (["/bin/app:",
        "\t/usr/lib/libc.dylib (compatibility version 1.0.0, current version 1.0.0)",
        "garbage"] : List String).drop 1 ∧
      depReMatch bad.data = none ∧
      (appendDirectDeps [] "/bin/app" (otoolBadLine "/bin/app")).2 =
        .panicked ("unexpected otool output: " ++ bad) ∧
      ∀ (abs : String → Except String String) (f : Nat) (rs : List String),
        abs "/bin/app" = .ok "/bin/app" →
        (totoolMain abs (probeOf otoolBadLine) (f + 1) ("/bin/app" :: rs)).panicMsg =
          some ("unexpected otool output: " ++ bad) ∧
        (totoolMain abs (probeOf otoolBadLine) (f + 1)
          ("/bin/app" :: rs)).runs.length = 1 :=
  unexpected_output_panics otoolBadLine "/bin/app"
    ["/bin/app:",
     "\t/usr/lib/libc.dylib (compatibility version 1.0.0, current version 1.0.0)",
     "garbage"] "garbage" (by decide) (by decide) rfl

/-- C7: the text renderer writes the path, a colon and a newline for
printRootBin; a tab, the path and a newline for printDepBin, with the info
string after a space when verbose; and nothing for printPrologue,
printEpilogue and printDep; composed over a traversal it reproduces the
spec's sample outputs. -/
theorem textPrinter_spec :
    (∀ (v : Bool) (path : String), textPrinterRender v (.rootBin path) = path ++ ":\n") ∧
    (∀ d : dependency, textPrinterRender false (.depBin d) = "\t" ++ d.bin ++ "\n") ∧
    (∀ d : dependency, textPrinterRender true (.depBin d) =
      "\t" ++ d.bin ++ " " ++ d.info ++ "\n") ∧
    (∀ v : Bool, textPrinterRender v .prologue = "" ∧
      textPrinterRender v .epilogue = "" ∧
      ∀ s t : String, textPrinterRender v (.dep s t) = "") ∧
    renderAll (textPrinterRender false)
      (walk (fun s => .ok s) (probeOf otoolSample) 3 "/bin/app").1 =
      "/bin/app:\n\t/usr/lib/libc.dylib\n" ∧
    renderAll (textPrinterRender true)
      (walk (fun s => .ok s) (probeOf otoolSample) 3 "/bin/app").1 =
      "/bin/app:\n\t/usr/lib/libc.dylib (compatibility version 1.0.0, current version 1.0.0)\n" := by
  refine ⟨fun v path => rfl, fun d => rfl, fun d => rfl,
    fun v => ⟨rfl, rfl, fun s t => rfl⟩, ?_, ?_⟩ <;> rfl

/-- C9: the error branch of appendDirectDeps asserts *exec.ExitError
unconditionally: when the utility ran and exited non-zero the assertion
holds and a ProbeError naming the binary is returned with the input slice
unchanged, but on a failure where the utility never ran the assertion
fails and the whole process panics instead of reporting a per-root
ProbeError. -/
theorem appendDirectDeps_exit_assertion
    (otool : String → CmdOutcome) (deps : List dependency) (bin msg : String)
    (h : otool bin = .startError msg) :
    appendDirectDeps deps bin (otool bin) =
      (deps, .panicked ("interface conversion: " ++ msg)) ∧
    (∀ (deps2 : List dependency) (bin2 stderr : String),
      appendDirectDeps deps2 bin2 (.exitError stderr) =
        (deps2, .probeError ("otool error when processing " ++ bin2))) ∧
    (∀ (abs : String → Except String String) (f : Nat) (rs : List String),
      abs bin = .ok bin →
      (totoolMain abs (probeOf otool) (f + 1) (bin :: rs)).panicMsg =
        some ("interface conversion: " ++ msg) ∧
      (totoolMain abs (probeOf otool) (f + 1) (bin :: rs)).exitCode = 2) := by
  refine ⟨by rw [h]; rfl, fun deps2 bin2 stderr => rfl, ?_⟩
  intro abs f rs habs
  have happ : (appendDirectDeps [] bin (otool bin)).2 =
      .panicked ("interface conversion: " ++ msg) := by
    rw [h]
    rfl
  have hprobe := probeOf_panicked_of_append otool bin _ happ
  have h3 := totoolMain_panics_on_first abs (probeOf otool) f bin rs _ habs hprobe
  exact ⟨h3.1, h3.2.2⟩

/-- C9 witness: an uninstalled otool panics the whole process. -/
theorem appendDirectDeps_exit_assertion_witness :
    appendDirectDeps [] "/A" (otoolMissing "/A") =
      ([], .panicked ("interface conversion: " ++
        "exec: otool: executable file not found in PATH")) ∧
    (∀ (deps2 : List dependency) (bin2 stderr : String),
      appendDirectDeps deps2 bin2 (.exitError stderr) =
        (deps2, .probeError ("otool error when processing " ++ bin2))) ∧
    (∀ (abs : String → Except String String) (f : Nat) (rs : List String),
      abs "/A" = .ok "/A" →
      (totoolMain abs (probeOf otoolMissing) (f + 1) ("/A" :: rs)).panicMsg =
        some ("interface conversion: " ++
          "exec: otool: executable file not found in PATH") ∧
      (totoolMain abs (probeOf otoolMissing) (f + 1) ("/A" :: rs)).exitCode = 2) :=
  appendDirectDeps_exit_assertion otoolMissing [] "/A"
    "exec: otool: executable file not found in PATH" rfl

/-- C10: in the later revision, once the root resolves, printPrologue is
emitted exactly once before every other event and printEpilogue exactly
once as walk returns — also on an early ProbeError return, the epilogue
being deferred — so dot output is always closed by its brace; when root
resolution fails no printer notification is emitted at all. -/
theorem prologue_epilogue_bracket
    (abs : String → Except String String) (probe : String → ProbeOutcome)
    (fuel : Nat) (root : String) :
    (∀ e : String, abs root = .error e → (walk abs probe fuel root).1 = []) ∧
    (∀ root2 : String, abs root = .ok root2 →
      ∃ evs, (walk abs probe fuel root).1 =
          Event.prologue :: (evs ++ [Event.epilogue]) ∧
        Event.prologue ∉ evs ∧ Event.epilogue ∉ evs ∧
        renderAll dotPrinterRender (walk abs probe fuel root).1 =
          "digraph G \x7b\n" ++ (renderAll dotPrinterRender evs ++ "\x7d\n")) := by
  constructor
  · intro e h
    rw [walk_eq_error abs probe fuel root e h]
  · intro root2 h
    rw [walk_eq_ok abs probe fuel root root2 h]
    refine ⟨(walkAux probe root2 fuel [⟨root2, ""⟩] []).1, by rw [List.cons_append],
      walkAux_no_prologue probe root2 fuel [⟨root2, ""⟩] [],
      walkAux_no_epilogue probe root2 fuel [⟨root2, ""⟩] [], ?_⟩
    show renderAll dotPrinterRender
        ((Event.prologue :: (walkAux probe root2 fuel [⟨root2, ""⟩] []).1) ++
          [Event.epilogue]) = _
    rw [renderAll_append, renderAll_cons]
    rw [show renderAll dotPrinterRender [Event.epilogue] = "\x7d\n" from
      String.append_empty _]
    rw [String.append_assoc]
    rfl

/-- C10 witness: the bracketing on the sample graph from /bin/app. -/
theorem prologue_epilogue_bracket_witness :
    ∃ evs, (walk (fun s => .ok s) (probeOf otoolSample) 3 "/bin/app").1 =
        Event.prologue :: (evs ++ [Event.epilogue]) ∧
      Event.prologue ∉ evs ∧ Event.epilogue ∉ evs ∧
      renderAll dotPrinterRender
          (walk (fun s => .ok s) (probeOf otoolSample) 3 "/bin/app").1 =
        "digraph G \x7b\n" ++ (renderAll dotPrinterRender evs ++ "\x7d\n") :=
  (prologue_epilogue_bracket (fun s => .ok s) (probeOf otoolSample) 3 "/bin/app").2
    "/bin/app" rfl

end Totool
